import Mathlib

/-!
Verification of the luminosity catalog metadata distribution engine
(src/distribution.go and src/cmd/luminosity/cmd_extract_previews.go),
as a shallow embedding in Lean.

Modelling conventions:
* Go `int64` is modelled as `Int`.  No claim under verification concerns
  integer-overflow boundary behaviour, and the spec's data model declares
  counts non-overflowing, so machine wrap-around is not modelled.
* A Go `map[string]*DistributionEntry` value is either the nil map or an
  initialized map.  An initialized map is modelled as an association list
  in insertion order (one entry per key by construction).  Go's map
  iteration order is unspecified; every use below either sorts afterwards
  or is order-insensitive, and the insertion order is taken as the
  canonical iteration order.
* Go statement `m[k] = v` on the nil map is a runtime panic
  ("assignment to entry in nil map"); functions that can panic return
  `Except String`.
* Go string comparison `<` is byte-wise lexicographic on the UTF-8
  encoding, which coincides with lexicographic order on the sequence of
  unicode scalar values, i.e. with `String.data` under the lexicographic
  `List Char` order (and with Lean's `String` order, by
  `String.lt_iff_toList_lt`).  The `.data` form is used operationally
  because it evaluates by `decide`.
* `sort.Sort` is an unstable comparison sort; wherever it is applied in
  the source the sort keys (labels) are pairwise distinct, so every
  correct sort produces the same sequence.  It is modelled by
  `List.insertionSort` on the same ordering.
* Floating-point values and their formatting (`ApertureToFNumber`,
  `ShutterSpeedToExposureTime`, `strconv.ParseFloat`, `fmt.Sprintf`
  with `%.1f`) live outside src/ or are IEEE-754 computations; they are
  treated as opaque parameters, so every theorem about the surrounding
  structural code holds for all possible conversion functions.
-/

namespace Luminosity

/-- Distribution bucket, from `type DistributionEntry struct` in
src/distribution.go: an `Id` from the store, a string `Label` (the merge
and sort key) and an occurrence `Count`. -/
structure DistributionEntry where
  Id : Int
  Label : String
  Count : Int
deriving Repr, DecidableEq, Inhabited

/-- Go type `DistributionList []*DistributionEntry`, an ordered sequence
of entries. -/
abbrev DistributionList := List DistributionEntry

/-- An initialized Go `map[string]*DistributionEntry`, as an association
list in insertion order. -/
abbrev AssocDistributionMap := List (String × DistributionEntry)

/-- A Go map variable of type `DistributionMap`: `none` is the nil map
(the zero value of a map type), `some` an initialized map. -/
abbrev DistributionMap := Option AssocDistributionMap

/-- Go map assignment `m[k] = v` on an initialized map: replace the
value if the key is present, otherwise append the new key. -/
def assocPut (m : AssocDistributionMap) (k : String) (v : DistributionEntry) :
    AssocDistributionMap :=
  if m.any (fun kv => kv.1 = k) then
    m.map (fun kv => if kv.1 = k then (k, v) else kv)
  else
    m ++ [(k, v)]

/-- Go panic message for map assignment through a nil map. -/
def nilMapPanicMsg : String := "assignment to entry in nil map"

/-- Translation of `func copyDistributionEntry(d *DistributionEntry)
*DistributionEntry` from src/distribution.go: allocate a fresh entry
with the same `Id`, `Count` and `Label`. -/
def copyDistributionEntry (d : DistributionEntry) : DistributionEntry :=
  { Id := d.Id, Count := d.Count, Label := d.Label }

/-- Translation of `func (l DistributionList) ToMap() (m DistributionMap)`
from src/distribution.go.  The named return value `m` starts life as the
zero value of a Go map type, the nil map; the body executes
`m[d.Label] = copyDistributionEntry(d)` for each entry `d` in order.
An assignment through the nil map is a runtime panic, modelled as
`Except.error`. -/
def DistributionList.ToMap (l : DistributionList) : Except String DistributionMap :=
  l.foldlM
    (fun (m : DistributionMap) (d : DistributionEntry) =>
      match m with
      | none => Except.error nilMapPanicMsg
      | some mm => Except.ok (some (assocPut mm d.Label (copyDistributionEntry d))))
    (none : DistributionMap)

/-- Keys of a Go `DistributionMap` value; the nil map has none. -/
def DistributionMap.keys : DistributionMap → List String
  | none => []
  | some mm => mm.map (fun kv => kv.1)

/-- Translation of `func (m DistributionMap) ToList() (d DistributionList)`
from src/distribution.go: append every stored entry, in the map's
iteration order (canonically, insertion order). -/
def AssocDistributionMap.ToList (m : AssocDistributionMap) : DistributionList :=
  m.map (fun kv => kv.2)

/-- One iteration of the inner loop of `MergeDistributions` on the
(initialized) accumulator map `merged`, here carried directly as the list
of its entries in insertion order, each keyed by its own label:
`if target, ok := merged[entry.Label]; ok { target.Count = target.Count +
entry.Count } else { merged[entry.Label] = copyDistributionEntry(entry) }`.
The `ok` branch mutates the entry already stored in the map (through its
pointer); the other branch inserts a fresh copy of the input entry. -/
def mergeInsert : List DistributionEntry → DistributionEntry → List DistributionEntry
  | [], e => [copyDistributionEntry e]
  | t :: rest, e =>
      if t.Label = e.Label then
        { t with Count := t.Count + e.Count } :: rest
      else
        t :: mergeInsert rest e

/-- Ordering used by `sort.Sort(list)` on a `DistributionList`, from
`func (l DistributionList) Less(i, j int) bool { return l[i].Label <
l[j].Label }`: Go byte-wise string comparison, i.e. lexicographic order
on the label's character sequence. -/
def entryLabelLe (a b : DistributionEntry) : Prop :=
  a.Label.data ≤ b.Label.data

instance : DecidableRel entryLabelLe := fun a b =>
  inferInstanceAs (Decidable (a.Label.data ≤ b.Label.data))

instance : IsTotal DistributionEntry entryLabelLe :=
  ⟨fun a b => le_total a.Label.data b.Label.data⟩

instance : IsTrans DistributionEntry entryLabelLe :=
  ⟨fun _ _ _ h h' => le_trans h h'⟩

/-- Model of `sort.Sort(list)` with the `DistributionList` ordering: an
unstable sort ascending by `Label`.  All call sites sort lists whose
labels are pairwise distinct, so the result does not depend on the
sorting algorithm; `insertionSort` is the executable representative. -/
def sortByLabel (l : DistributionList) : DistributionList :=
  l.insertionSort entryLabelLe

/-- Translation of `func MergeDistributions(dists ...DistributionList)
DistributionList` from src/distribution.go: fold every entry of every
input list into an initially empty (initialized) map, flatten the map to
a list, and sort it ascending by label. -/
def MergeDistributions (dists : List DistributionList) : DistributionList :=
  let merged := dists.foldl (fun m dist => dist.foldl mergeInsert m) []
  sortByLabel merged

/-- Translation of `func (l DistributionList) Merge(dists
...DistributionList) DistributionList`, which evaluates
`MergeDistributions(append(dists, l)...)`. -/
def DistributionList.Merge (l : DistributionList) (dists : List DistributionList) :
    DistributionList :=
  MergeDistributions (dists ++ [l])

/-- Sum of the counts of the entries of `l` carrying label `s` (the
specification-side aggregate that merging is measured against). -/
def countOf (s : String) (l : List DistributionEntry) : Int :=
  ((l.filter (fun e => e.Label = s)).map (fun e => e.Count)).sum

/-- First entry of `l` carrying label `s`, if any. -/
def findByLabel (s : String) (l : List DistributionEntry) : Option DistributionEntry :=
  l.find? (fun e => e.Label = s)

/-- Labels of the entries of `l` are pairwise distinct. -/
def NodupLabels (l : List DistributionEntry) : Prop :=
  l.Pairwise (fun a b => a.Label ≠ b.Label)


/-! ### Basic lemmas about labels, lookup and `mergeInsert` -/

theorem copyDistributionEntry_eq (d : DistributionEntry) :
    copyDistributionEntry d = d := rfl

theorem findByLabel_nil (s : String) : findByLabel s [] = none := rfl

theorem findByLabel_cons_of_eq {t : DistributionEntry} {l : List DistributionEntry}
    {s : String} (h : t.Label = s) : findByLabel s (t :: l) = some t := by
  simp [findByLabel, List.find?_cons_of_pos, h]

theorem findByLabel_cons_of_ne {t : DistributionEntry} {l : List DistributionEntry}
    {s : String} (h : t.Label ≠ s) : findByLabel s (t :: l) = findByLabel s l := by
  simp [findByLabel, List.find?_cons_of_neg, h]

theorem findByLabel_append (s : String) (l₁ l₂ : List DistributionEntry) :
    findByLabel s (l₁ ++ l₂) = (findByLabel s l₁).or (findByLabel s l₂) := by
  simp [findByLabel, List.find?_append]

theorem countOf_nil (s : String) : countOf s [] = 0 := rfl

theorem countOf_append (s : String) (l₁ l₂ : List DistributionEntry) :
    countOf s (l₁ ++ l₂) = countOf s l₁ + countOf s l₂ := by
  simp [countOf, List.filter_append]

theorem countOf_singleton_of_eq {e : DistributionEntry} {s : String} (h : e.Label = s) :
    countOf s [e] = e.Count := by
  simp [countOf, h]

theorem countOf_singleton_of_ne {e : DistributionEntry} {s : String} (h : e.Label ≠ s) :
    countOf s [e] = 0 := by
  simp [countOf, h]

theorem countOf_eq_zero_of_findByLabel_eq_none {s : String}
    {l : List DistributionEntry} (h : findByLabel s l = none) : countOf s l = 0 := by
  have hall : ∀ e ∈ l, ¬ (e.Label = s) := by
    simpa [findByLabel, List.find?_eq_none] using h
  have : l.filter (fun e => e.Label = s) = [] := by
    simp only [List.filter_eq_nil_iff]
    intro e he
    simpa using hall e he
  simp [countOf, this]

theorem mergeInsert_findByLabel_of_ne (m : List DistributionEntry)
    (e : DistributionEntry) (s : String) (h : s ≠ e.Label) :
    findByLabel s (mergeInsert m e) = findByLabel s m := by
  induction m with
  | nil =>
      show findByLabel s [copyDistributionEntry e] = findByLabel s []
      rw [copyDistributionEntry_eq, findByLabel_cons_of_ne (fun hc => h hc.symm),
        findByLabel_nil]
  | cons t rest ih =>
      by_cases ht : t.Label = e.Label
      · have hm : mergeInsert (t :: rest) e =
            { t with Count := t.Count + e.Count } :: rest := by
          simp [mergeInsert, ht]
        have hts : t.Label ≠ s := fun hc => h (ht ▸ hc).symm
        rw [hm, findByLabel_cons_of_ne (by simpa using hts),
          findByLabel_cons_of_ne hts]
      · have hm : mergeInsert (t :: rest) e = t :: mergeInsert rest e := by
          simp [mergeInsert, ht]
        by_cases hts : t.Label = s
        · rw [hm, findByLabel_cons_of_eq hts, findByLabel_cons_of_eq hts]
        · rw [hm, findByLabel_cons_of_ne hts, findByLabel_cons_of_ne hts, ih]

theorem mergeInsert_findByLabel_of_found {m : List DistributionEntry}
    {e t : DistributionEntry} (h : findByLabel e.Label m = some t) :
    findByLabel e.Label (mergeInsert m e) =
      some { t with Count := t.Count + e.Count } := by
  induction m with
  | nil => simp [findByLabel_nil] at h
  | cons u rest ih =>
      by_cases hu : u.Label = e.Label
      · have hut : u = t := by
          rw [findByLabel_cons_of_eq hu] at h
          exact Option.some_injective _ h
        subst hut
        have hm : mergeInsert (u :: rest) e =
            { u with Count := u.Count + e.Count } :: rest := by
          simp [mergeInsert, hu]
        rw [hm, findByLabel_cons_of_eq (by simpa using hu)]
      · have h' : findByLabel e.Label rest = some t := by
          rwa [findByLabel_cons_of_ne hu] at h
        have hm : mergeInsert (u :: rest) e = u :: mergeInsert rest e := by
          simp [mergeInsert, hu]
        rw [hm, findByLabel_cons_of_ne hu, ih h']

theorem mergeInsert_of_not_found {m : List DistributionEntry} {e : DistributionEntry}
    (h : findByLabel e.Label m = none) :
    mergeInsert m e = m ++ [copyDistributionEntry e] := by
  induction m with
  | nil => rfl
  | cons u rest ih =>
      by_cases hu : u.Label = e.Label
      · rw [findByLabel_cons_of_eq hu] at h
        exact absurd h (by simp)
      · rw [findByLabel_cons_of_ne hu] at h
        simp [mergeInsert, hu, ih h]

theorem mergeInsert_label_mem {m : List DistributionEntry} {e b : DistributionEntry}
    (hb : b ∈ mergeInsert m e) :
    (∃ a ∈ m, b.Label = a.Label) ∨ b.Label = e.Label := by
  induction m with
  | nil =>
      right
      simp only [mergeInsert, List.mem_singleton] at hb
      simp [hb, copyDistributionEntry]
  | cons u rest ih =>
      by_cases hu : u.Label = e.Label
      · simp only [mergeInsert, hu, if_pos, List.mem_cons] at hb
        rcases hb with hb | hb
        · right; simp [hb, hu]
        · left; exact ⟨b, by simp [hb], rfl⟩
      · simp only [mergeInsert, hu, if_neg, List.mem_cons, not_false_iff] at hb
        rcases hb with hb | hb
        · left; exact ⟨u, by simp, by simp [hb]⟩
        · rcases ih hb with ⟨a, ha, hl⟩ | hl
          · left; exact ⟨a, by simp [ha], hl⟩
          · right; exact hl

theorem mergeInsert_nodupLabels {m : List DistributionEntry} (e : DistributionEntry)
    (h : NodupLabels m) : NodupLabels (mergeInsert m e) := by
  induction m with
  | nil => simp [mergeInsert, NodupLabels]
  | cons u rest ih =>
      rw [NodupLabels, List.pairwise_cons] at h
      obtain ⟨hu, hrest⟩ := h
      by_cases huc : u.Label = e.Label
      · have hm : mergeInsert (u :: rest) e =
            { u with Count := u.Count + e.Count } :: rest := by
          simp [mergeInsert, huc]
        rw [NodupLabels, hm, List.pairwise_cons]
        exact ⟨fun b hb => by simpa using hu b hb, hrest⟩
      · have hm : mergeInsert (u :: rest) e = u :: mergeInsert rest e := by
          simp [mergeInsert, huc]
        rw [NodupLabels, hm, List.pairwise_cons]
        constructor
        · intro b hb hc
          rcases mergeInsert_label_mem hb with ⟨a, ha, hl⟩ | hl
          · exact hu a ha (hc.trans hl)
          · exact huc (hc.trans hl)
        · exact ih hrest

/-! ### The merge invariant: the accumulator map summarises the processed prefix -/

/-- Invariant tying the accumulator map of `MergeDistributions` (as entry
list `m`) to the prefix `p` of input entries already folded in: looking
any label up in `m` yields the `Id` and `Label` of the first occurrence
of that label in `p` and the sum of all its counts in `p`. -/
def MergeInv (p m : List DistributionEntry) : Prop :=
  ∀ s, findByLabel s m =
    (findByLabel s p).map (fun f => ⟨f.Id, f.Label, countOf s p⟩)

theorem mergeInv_nil : MergeInv [] [] := by
  intro s
  simp [findByLabel_nil]

theorem mergeInv_step {p m : List DistributionEntry} (h : MergeInv p m)
    (e : DistributionEntry) : MergeInv (p ++ [e]) (mergeInsert m e) := by
  intro s
  by_cases hs : s = e.Label
  · subst hs
    rcases hm : findByLabel e.Label m with _ | t
    · have hp : findByLabel e.Label p = none := by
        have := h e.Label
        rw [hm] at this
        exact (Option.map_eq_none.mp this.symm)
      have hc0 : countOf e.Label p = 0 := countOf_eq_zero_of_findByLabel_eq_none hp
      rw [mergeInsert_of_not_found hm, findByLabel_append,
        findByLabel_append, hp, hm, Option.none_or, Option.none_or,
        copyDistributionEntry_eq, findByLabel_cons_of_eq rfl,
        countOf_append, hc0, countOf_singleton_of_eq rfl]
      simp
    · have hstep := mergeInsert_findByLabel_of_found (e := e) hm
      have hp : ∃ f, findByLabel e.Label p = some f ∧
          t = ⟨f.Id, f.Label, countOf e.Label p⟩ := by
        have := h e.Label
        rw [hm] at this
        rcases hf : findByLabel e.Label p with _ | f
        · rw [hf] at this
          exact absurd this (by simp)
        · rw [hf] at this
          refine ⟨f, rfl, ?_⟩
          simpa using this
      rcases hp with ⟨f, hf, ht⟩
      rw [hstep, findByLabel_append, hf, countOf_append,
        countOf_singleton_of_eq rfl, ht]
      simp
  · rw [mergeInsert_findByLabel_of_ne m e s hs, h s, findByLabel_append,
      countOf_append, countOf_singleton_of_ne (fun hc => hs hc.symm),
      findByLabel_cons_of_ne (fun hc => hs hc.symm), findByLabel_nil]
    simp

theorem mergeInv_foldl {p : List DistributionEntry} :
    ∀ (q m : List DistributionEntry), MergeInv q m →
      MergeInv (q ++ p) (p.foldl mergeInsert m) := by
  induction p with
  | nil => intro q m h; simpa using h
  | cons e p' ih =>
      intro q m h
      have := ih (q ++ [e]) (mergeInsert m e) (mergeInv_step h e)
      simpa [List.append_assoc] using this

theorem nodupLabels_foldl {p : List DistributionEntry} :
    ∀ (m : List DistributionEntry), NodupLabels m →
      NodupLabels (p.foldl mergeInsert m) := by
  induction p with
  | nil => intro m h; simpa using h
  | cons e p' ih =>
      intro m h
      exact ih (mergeInsert m e) (mergeInsert_nodupLabels e h)

/-- The accumulator map built by `MergeDistributions` over all the input
lists, before flattening and sorting. -/
def mergedOf (dists : List DistributionList) : List DistributionEntry :=
  dists.foldl (fun m dist => dist.foldl mergeInsert m) []

theorem mergedOf_eq_foldl_flatten (dists : List DistributionList) :
    mergedOf dists = dists.flatten.foldl mergeInsert [] := by
  rw [mergedOf, List.foldl_flatten]

theorem mergedOf_inv (dists : List DistributionList) :
    MergeInv dists.flatten (mergedOf dists) := by
  rw [mergedOf_eq_foldl_flatten]
  simpa using mergeInv_foldl [] [] mergeInv_nil

theorem mergedOf_nodupLabels (dists : List DistributionList) :
    NodupLabels (mergedOf dists) := by
  rw [mergedOf_eq_foldl_flatten]
  exact nodupLabels_foldl [] (by simp [NodupLabels])

theorem MergeDistributions_eq_sort_mergedOf (dists : List DistributionList) :
    MergeDistributions dists = sortByLabel (mergedOf dists) := rfl

theorem findByLabel_of_mem_nodup {l : List DistributionEntry}
    {e : DistributionEntry} (hn : NodupLabels l) (he : e ∈ l) :
    findByLabel e.Label l = some e := by
  induction l with
  | nil => simp at he
  | cons t rest ih =>
      rw [NodupLabels, List.pairwise_cons] at hn
      rcases List.mem_cons.mp he with rfl | hmem
      · exact findByLabel_cons_of_eq rfl
      · have hne : t.Label ≠ e.Label := hn.1 e hmem
        rw [findByLabel_cons_of_ne hne]
        exact ih hn.2 hmem

theorem findByLabel_isSome_iff {s : String} {l : List DistributionEntry} :
    (∃ e ∈ l, e.Label = s) ↔ (findByLabel s l).isSome := by
  rw [findByLabel, List.find?_isSome]
  constructor
  · rintro ⟨e, he, hl⟩; exact ⟨e, he, by simp [hl]⟩
  · rintro ⟨e, he, hl⟩; exact ⟨e, he, by simpa using hl⟩

/-! ### Transfer along the final sort -/

theorem sortByLabel_perm (l : DistributionList) : (sortByLabel l).Perm l :=
  List.perm_insertionSort entryLabelLe l

theorem sortByLabel_sorted (l : DistributionList) :
    List.Sorted entryLabelLe (sortByLabel l) :=
  List.sorted_insertionSort entryLabelLe l

theorem sortByLabel_nodupLabels {l : DistributionList} (h : NodupLabels l) :
    NodupLabels (sortByLabel l) :=
  (List.Perm.pairwise_iff (fun hxy => hxy.symm) (sortByLabel_perm l)).mpr h

theorem string_lt_of_data_le_of_data_ne {a b : String}
    (hle : a.data ≤ b.data) (hne : a.data ≠ b.data) : a < b := by
  rw [String.lt_iff_toList_lt]
  exact lt_of_le_of_ne hle hne

theorem pairwise_label_lt_of_sorted_nodup {l : DistributionList}
    (hs : List.Sorted entryLabelLe l) (hn : NodupLabels l) :
    l.Pairwise (fun a b => a.Label < b.Label) := by
  refine (hs.and hn).imp ?_
  rintro a b ⟨hle, hne⟩
  exact string_lt_of_data_le_of_data_ne hle (fun hdata => hne (String.ext hdata))

/-! ### Characterization of the merged result, as reusable lemmas -/

theorem merge_pairwise_lt (dists : List DistributionList) :
    (MergeDistributions dists).Pairwise (fun a b => a.Label < b.Label) :=
  pairwise_label_lt_of_sorted_nodup (sortByLabel_sorted _)
    (sortByLabel_nodupLabels (mergedOf_nodupLabels dists))

theorem merge_nodupLabels (dists : List DistributionList) :
    NodupLabels (MergeDistributions dists) :=
  sortByLabel_nodupLabels (mergedOf_nodupLabels dists)

theorem merge_mem_label_iff (dists : List DistributionList) (s : String) :
    (∃ e ∈ MergeDistributions dists, e.Label = s) ↔
      (∃ a ∈ dists.flatten, a.Label = s) := by
  rw [MergeDistributions_eq_sort_mergedOf]
  have hmem : ∀ e : DistributionEntry,
      e ∈ sortByLabel (mergedOf dists) ↔ e ∈ mergedOf dists :=
    fun e => (sortByLabel_perm (mergedOf dists)).mem_iff
  constructor
  · rintro ⟨e, he, rfl⟩
    have h1 : (findByLabel e.Label (mergedOf dists)).isSome :=
      findByLabel_isSome_iff.mp ⟨e, (hmem e).mp he, rfl⟩
    rw [mergedOf_inv dists e.Label] at h1
    exact findByLabel_isSome_iff.mpr (by simpa using h1)
  · rintro ⟨a, ha, rfl⟩
    have h1 : (findByLabel a.Label dists.flatten).isSome :=
      findByLabel_isSome_iff.mp ⟨a, ha, rfl⟩
    have h2 : (findByLabel a.Label (mergedOf dists)).isSome := by
      rw [mergedOf_inv dists a.Label]
      simpa using h1
    rcases Option.isSome_iff_exists.mp h2 with ⟨e, he⟩
    have hem : e ∈ mergedOf dists := List.mem_of_find?_eq_some he
    have hel : e.Label = a.Label := by
      have := List.find?_some he
      simpa using this
    exact ⟨e, (hmem e).mpr hem, hel⟩

theorem merge_entry_first_occurrence (dists : List DistributionList) :
    ∀ e ∈ MergeDistributions dists, ∃ f,
      findByLabel e.Label dists.flatten = some f ∧
      e.Id = f.Id ∧ e.Label = f.Label ∧
      e.Count = countOf e.Label dists.flatten := by
  intro e he
  rw [MergeDistributions_eq_sort_mergedOf] at he
  have hem : e ∈ mergedOf dists := (sortByLabel_perm (mergedOf dists)).mem_iff.mp he
  have hfind : findByLabel e.Label (mergedOf dists) = some e :=
    findByLabel_of_mem_nodup (mergedOf_nodupLabels dists) hem
  have hinv := mergedOf_inv dists e.Label
  rw [hfind] at hinv
  rcases hf : findByLabel e.Label dists.flatten with _ | f
  · rw [hf] at hinv
    exact absurd hinv (by simp)
  · rw [hf] at hinv
    have he2 : e = ⟨f.Id, f.Label, countOf e.Label dists.flatten⟩ := by
      simpa using hinv
    have hid : e.Id = f.Id := by rw [he2]
    have hlb : e.Label = f.Label := by rw [he2]
    have hct : e.Count = countOf e.Label dists.flatten := by
      conv_lhs => rw [he2]
    exact ⟨f, rfl, hid, hlb, hct⟩

theorem filter_label_eq_singleton_of_nodup {l : List DistributionEntry}
    {e : DistributionEntry} (hn : NodupLabels l)
    (hf : findByLabel e.Label l = some e) :
    l.filter (fun t => t.Label = e.Label) = [e] := by
  induction l with
  | nil => simp [findByLabel_nil] at hf
  | cons u rest ih =>
      rw [NodupLabels, List.pairwise_cons] at hn
      by_cases hu : u.Label = e.Label
      · rw [findByLabel_cons_of_eq hu] at hf
        have hue : u = e := Option.some_injective _ hf
        subst hue
        have hnone : rest.filter (fun t => t.Label = u.Label) = [] := by
          simp only [List.filter_eq_nil_iff]
          intro t ht
          simpa using (hn.1 t ht).symm
        simp [List.filter_cons, hu, hnone]
      · rw [findByLabel_cons_of_ne hu] at hf
        have := ih hn.2 hf
        simp [List.filter_cons, hu, this]

theorem countOf_of_findByLabel_some {l : List DistributionEntry}
    {e : DistributionEntry} (hn : NodupLabels l)
    (hf : findByLabel e.Label l = some e) :
    countOf e.Label l = e.Count := by
  rw [countOf, filter_label_eq_singleton_of_nodup hn hf]
  simp

/-- Merging preserves the per-label count totals of the concatenated
inputs: for every label, the merged list carries the same total count as
the flattened inputs. -/
theorem countOf_merge (dists : List DistributionList) (s : String) :
    countOf s (MergeDistributions dists) = countOf s dists.flatten := by
  rcases hf : findByLabel s (MergeDistributions dists) with _ | e
  · have hnone : countOf s (MergeDistributions dists) = 0 :=
      countOf_eq_zero_of_findByLabel_eq_none hf
    have hnomem : ¬ ∃ e ∈ MergeDistributions dists, e.Label = s := by
      intro hc
      have := findByLabel_isSome_iff.mp hc
      rw [hf] at this
      simp at this
    have hnoflat : findByLabel s dists.flatten = none := by
      rcases hg : findByLabel s dists.flatten with _ | a
      · rfl
      · exfalso
        apply hnomem
        exact (merge_mem_label_iff dists s).mpr ⟨a, List.mem_of_find?_eq_some hg,
          by simpa using List.find?_some hg⟩
    rw [hnone, countOf_eq_zero_of_findByLabel_eq_none hnoflat]
  · have hel : e.Label = s := by
      have := List.find?_some hf
      simpa using this
    subst hel
    have hem : e ∈ MergeDistributions dists := List.mem_of_find?_eq_some hf
    have hcnt : countOf e.Label (MergeDistributions dists) = e.Count :=
      countOf_of_findByLabel_some (merge_nodupLabels dists) hf
    rcases merge_entry_first_occurrence dists e hem with ⟨f, _, _, _, hc⟩
    rw [hcnt, hc]

/-! ### Equality of label-count projections of sorted merge results -/

/-- Projection of a distribution list onto label and count, forgetting
ids: the data in which the merge is order-independent. -/
def labelCountProj (l : DistributionList) : List (String × Int) :=
  l.map (fun e => (e.Label, e.Count))

/-- Strict order on label-count pairs used to compare sorted outputs. -/
def pairLabelLt (x y : String × Int) : Prop := x.1 < y.1

instance : IsAntisymm (String × Int) pairLabelLt :=
  ⟨fun _ _ h h' => absurd (lt_trans h h') (lt_irrefl _)⟩

theorem labelCountProj_sorted {l : DistributionList}
    (h : l.Pairwise (fun a b => a.Label < b.Label)) :
    (labelCountProj l).Pairwise pairLabelLt := by
  rw [labelCountProj, List.pairwise_map]
  exact h.imp (fun hab => hab)

theorem labelCountProj_nodup {l : DistributionList}
    (h : l.Pairwise (fun a b => a.Label < b.Label)) :
    (labelCountProj l).Nodup := by
  have hp := labelCountProj_sorted h
  exact hp.imp (fun hxy hc => absurd (hc ▸ hxy : pairLabelLt _ _) (lt_irrefl _))

theorem mem_labelCountProj {l : DistributionList} {x : String × Int} :
    x ∈ labelCountProj l ↔ ∃ e ∈ l, e.Label = x.1 ∧ e.Count = x.2 := by
  rw [labelCountProj, List.mem_map]
  constructor
  · rintro ⟨e, he, rfl⟩
    exact ⟨e, he, rfl, rfl⟩
  · rintro ⟨e, he, h1, h2⟩
    exact ⟨e, he, by rw [h1, h2]⟩

/-- Two lists that are strictly sorted by label and agree on which labels
occur and on the count each label carries have equal label-count
projections. -/
theorem labelCountProj_eq_of_agree {r1 r2 : DistributionList}
    (h1 : r1.Pairwise (fun a b => a.Label < b.Label))
    (h2 : r2.Pairwise (fun a b => a.Label < b.Label))
    (hmem : ∀ s, (∃ e ∈ r1, e.Label = s) ↔ (∃ e ∈ r2, e.Label = s))
    (hcnt : ∀ s, countOf s r1 = countOf s r2) :
    labelCountProj r1 = labelCountProj r2 := by
  have hn1 : NodupLabels r1 := h1.imp (fun h => ne_of_lt h)
  have hn2 : NodupLabels r2 := h2.imp (fun h => ne_of_lt h)
  refine List.eq_of_perm_of_sorted
    ((List.perm_ext_iff_of_nodup (labelCountProj_nodup h1)
      (labelCountProj_nodup h2)).mpr ?_)
    (labelCountProj_sorted h1) (labelCountProj_sorted h2)
  intro x
  rw [mem_labelCountProj, mem_labelCountProj]
  constructor
  · rintro ⟨e, he, hl, hc⟩
    rcases (hmem x.1).mp ⟨e, he, hl⟩ with ⟨e2, he2, hl2⟩
    refine ⟨e2, he2, hl2, ?_⟩
    have hce : countOf x.1 r1 = e.Count := by
      rw [← hl]
      exact countOf_of_findByLabel_some hn1 (findByLabel_of_mem_nodup hn1 he)
    have hce2 : countOf x.1 r2 = e2.Count := by
      rw [← hl2]
      exact countOf_of_findByLabel_some hn2 (findByLabel_of_mem_nodup hn2 he2)
    rw [← hce2, ← hcnt x.1, hce, hc]
  · rintro ⟨e, he, hl, hc⟩
    rcases (hmem x.1).mpr ⟨e, he, hl⟩ with ⟨e1, he1, hl1⟩
    refine ⟨e1, he1, hl1, ?_⟩
    have hce : countOf x.1 r2 = e.Count := by
      rw [← hl]
      exact countOf_of_findByLabel_some hn2 (findByLabel_of_mem_nodup hn2 he)
    have hce1 : countOf x.1 r1 = e1.Count := by
      rw [← hl1]
      exact countOf_of_findByLabel_some hn1 (findByLabel_of_mem_nodup hn1 he1)
    rw [← hce1, hcnt x.1, hce, hc]

theorem exists_label_flatten_two (x y : DistributionList) (s : String) :
    (∃ a ∈ ([x, y] : List DistributionList).flatten, a.Label = s) ↔
      ((∃ a ∈ x, a.Label = s) ∨ (∃ a ∈ y, a.Label = s)) := by
  constructor
  · rintro ⟨a, ha, hl⟩
    rcases List.mem_append.mp (by simpa using ha) with h | h
    · exact Or.inl ⟨a, h, hl⟩
    · exact Or.inr ⟨a, h, hl⟩
  · rintro (⟨a, ha, hl⟩ | ⟨a, ha, hl⟩)
    · exact ⟨a, by simp [ha], hl⟩
    · exact ⟨a, by simp [ha], hl⟩

theorem countOf_flatten_two (x y : DistributionList) (s : String) :
    countOf s ([x, y] : List DistributionList).flatten =
      countOf s x + countOf s y := by
  show countOf s (x ++ (y ++ [])) = _
  rw [countOf_append, countOf_append, countOf_nil, add_zero]

/-! ### Claim C1 -/

/-- C1: the claim fails on the code, and the code contradicts the
documented intent: in `func (l DistributionList) ToMap() (m
DistributionMap)` the named return value `m` is never initialized, so it
is the nil Go map and the first iteration's assignment `m[d.Label] =
copyDistributionEntry(d)` panics with "assignment to entry in nil map".
Hence `ToMap` panics on every non-empty list instead of building the
keyed map, and on the empty list it returns the nil map.  This theorem
evaluates the model on the failing inputs. -/
theorem C1_toMap_nil_map_panic :
    DistributionList.ToMap [] = Except.ok none ∧
    (∀ (d : DistributionEntry) (l : List DistributionEntry),
      DistributionList.ToMap (d :: l) = Except.error nilMapPanicMsg) ∧
    DistributionList.ToMap [⟨1, "A", 2⟩] = Except.error nilMapPanicMsg :=
  ⟨rfl, fun _ _ => rfl, rfl⟩

/-! ### Claim C2 -/

/-- C2: `MergeDistributions` of any finite sequence of lists (the empty
sequence giving the empty list and no error) returns a list strictly
sorted ascending by `Label` under lexicographic string order (hence with
exactly one entry per label), whose labels are exactly the labels
occurring in the inputs, and each returned entry carries the `Id` and
`Label` of the first occurrence of its label in iteration order over the
inputs together with the sum of all counts of that label across the
inputs (so merging a list with itself sums `Count` but does not double
`Id`). -/
theorem C2_mergeDistributions_correct :
    MergeDistributions [] = [] ∧
    ∀ dists : List DistributionList,
      (MergeDistributions dists).Pairwise (fun a b => a.Label < b.Label) ∧
      (∀ s, (∃ e ∈ MergeDistributions dists, e.Label = s) ↔
        (∃ a ∈ dists.flatten, a.Label = s)) ∧
      (∀ e ∈ MergeDistributions dists, ∃ f,
        findByLabel e.Label dists.flatten = some f ∧
        e.Id = f.Id ∧ e.Label = f.Label ∧
        e.Count = countOf e.Label dists.flatten) :=
  ⟨rfl, fun dists => ⟨merge_pairwise_lt dists, merge_mem_label_iff dists,
    merge_entry_first_occurrence dists⟩⟩

/-- Witness for C2 at a concrete input: merging `[{1,"B",2},{7,"A",1}]`
with `[{9,"B",5}]`, the returned "B" entry keeps `Id` 1 from the first
occurrence and carries count 7 = 2 + 5. -/
theorem C2_mergeDistributions_correct_witness :
    ∃ f, findByLabel "B" [⟨1, "B", 2⟩, ⟨7, "A", 1⟩, ⟨9, "B", 5⟩] = some f ∧
      (1 : Int) = f.Id ∧ "B" = f.Label ∧
      (7 : Int) = countOf "B" [⟨1, "B", 2⟩, ⟨7, "A", 1⟩, ⟨9, "B", 5⟩] := by
  have h := (C2_mergeDistributions_correct.2
    [[⟨1, "B", 2⟩, ⟨7, "A", 1⟩], [⟨9, "B", 5⟩]]).2.2 ⟨1, "B", 7⟩ (by decide)
  simpa using h

/-! ### Claim C3 -/

/-- C3 counterexample: merging in the two argument orders does NOT
always yield the same resulting list, because the `Id` of a colliding
label is taken from the first occurrence, which depends on the argument
order.  Here `{1,"A",1}` merged with `{2,"A",1}` yields `{1,"A",2}` in
one order and `{2,"A",2}` in the other. -/
theorem C3_merge_order_changes_ids :
    MergeDistributions [[⟨1, "A", 1⟩], [⟨2, "A", 1⟩]] ≠
      MergeDistributions [[⟨2, "A", 1⟩], [⟨1, "A", 1⟩]] := by
  decide

/-- C3 (amended): `MergeDistributions` is commutative and associative in
the resulting per-label count totals: merging in either argument order,
or reassociating a three-way merge through nested two-way merges, yields
the same resulting list up to the `Id` field (equal label-count
projections; the full lists agree whenever colliding labels carry equal
ids, as in the all-zero-id example, which yields `[{A,3},{B,3}]` sorted
by label in both orders). -/
theorem C3_merge_commutative_associative_in_counts :
    (∀ d1 d2 : DistributionList,
      labelCountProj (MergeDistributions [d1, d2]) =
        labelCountProj (MergeDistributions [d2, d1])) ∧
    (∀ a b c : DistributionList,
      labelCountProj (MergeDistributions [MergeDistributions [a, b], c]) =
        labelCountProj (MergeDistributions [a, MergeDistributions [b, c]])) ∧
    MergeDistributions [[⟨0, "A", 1⟩], [⟨0, "A", 2⟩, ⟨0, "B", 3⟩]] =
      [⟨0, "A", 3⟩, ⟨0, "B", 3⟩] ∧
    MergeDistributions [[⟨0, "A", 2⟩, ⟨0, "B", 3⟩], [⟨0, "A", 1⟩]] =
      [⟨0, "A", 3⟩, ⟨0, "B", 3⟩] := by
  refine ⟨?_, ?_, by decide, by decide⟩
  · intro d1 d2
    refine labelCountProj_eq_of_agree (merge_pairwise_lt _) (merge_pairwise_lt _)
      ?_ ?_
    · intro s
      rw [merge_mem_label_iff, merge_mem_label_iff,
        exists_label_flatten_two, exists_label_flatten_two, or_comm]
    · intro s
      rw [countOf_merge, countOf_merge, countOf_flatten_two, countOf_flatten_two,
        add_comm]
  · intro a b c
    refine labelCountProj_eq_of_agree (merge_pairwise_lt _) (merge_pairwise_lt _)
      ?_ ?_
    · intro s
      rw [merge_mem_label_iff, merge_mem_label_iff,
        exists_label_flatten_two, exists_label_flatten_two,
        merge_mem_label_iff, merge_mem_label_iff,
        exists_label_flatten_two, exists_label_flatten_two, or_assoc]
    · intro s
      rw [countOf_merge, countOf_merge, countOf_flatten_two, countOf_flatten_two,
        countOf_merge, countOf_merge, countOf_flatten_two, countOf_flatten_two,
        add_assoc]

/-! ### Claim C5 -/

/-- C5: label uniqueness is an invariant established by the
transformation functions, not at construction time: every list returned
by `MergeDistributions` has pairwise-distinct labels, even when the
input lists contain duplicate labels; every map value that `ToMap`
returns (i.e. without panicking) has distinct keys; and a
`DistributionList` with duplicate labels is itself a perfectly legal
value, which merging dedups. -/
theorem C5_label_uniqueness_invariant :
    (∀ dists : List DistributionList, NodupLabels (MergeDistributions dists)) ∧
    (∀ (l : DistributionList) (m : DistributionMap),
      DistributionList.ToMap l = Except.ok m → m.keys.Nodup) ∧
    (∃ l : DistributionList, ¬ (l.map (fun e => e.Label)).Nodup ∧
      NodupLabels (MergeDistributions [l])) := by
  refine ⟨merge_nodupLabels, ?_, ⟨[⟨1, "A", 1⟩, ⟨2, "A", 2⟩], by decide,
    merge_nodupLabels _⟩⟩
  intro l m h
  cases l with
  | nil =>
      have hm : (Except.ok (none : DistributionMap) : Except String DistributionMap)
          = Except.ok m := h
      cases hm
      simp [DistributionMap.keys]
  | cons d l' =>
      exact Except.noConfusion h

/-- Witness for C5 at a concrete input: the empty list is the one input
on which `ToMap` returns, and the returned (nil) map has distinct
(no) keys. -/
theorem C5_label_uniqueness_invariant_witness :
    (DistributionMap.keys (none : DistributionMap)).Nodup :=
  C5_label_uniqueness_invariant.2.1 [] none rfl

/-! ### Heap model: the frame property of the structural transformations

To express that no input entry is ever mutated in place (claim C6), the
pointer structure of the Go code is made explicit: entries live in a
heap (an allocation-ordered list of `DistributionEntry` cells), a
`*DistributionEntry` is an index into it, and the merge accumulator map
stores pointers.  `target.Count = target.Count + entry.Count` is a heap
write at the pointer stored in the map, and `copyDistributionEntry`
allocates a fresh cell at the end of the heap. -/

abbrev Heap := List DistributionEntry

abbrev Ptr := Nat

/-- Dereference a pointer (out-of-range reads return the zero entry;
they never occur in the modelled runs). -/
def heapGet (h : Heap) (p : Ptr) : DistributionEntry := h.getD p default

/-- Heap version of `copyDistributionEntry`: read the source cell and
allocate a fresh cell with the same fields at the end of the heap,
returning the new pointer. -/
def copyDistributionEntryH (h : Heap) (p : Ptr) : Heap × Ptr :=
  (h ++ [{ Id := (heapGet h p).Id, Count := (heapGet h p).Count,
           Label := (heapGet h p).Label }], h.length)

/-- One inner-loop iteration of `MergeDistributions` in the heap model:
look the entry's label up in the accumulator map; if present, write the
incremented count back through the stored pointer (mutating only that
map-owned cell), otherwise allocate a copy and bind the label to it. -/
def mergeStepH (st : Heap × List (String × Ptr)) (ep : Ptr) :
    Heap × List (String × Ptr) :=
  let e := heapGet st.1 ep
  match st.2.find? (fun kv => kv.1 = e.Label) with
  | some kv =>
      (st.1.set kv.2 { heapGet st.1 kv.2 with
        Count := (heapGet st.1 kv.2).Count + e.Count }, st.2)
  | none =>
      let hp := copyDistributionEntryH st.1 ep
      (hp.1, st.2 ++ [(e.Label, hp.2)])

/-- Pointer ordering by pointed-to label, for the final sort. -/
def ptrLabelLe (h : Heap) (p q : Ptr) : Prop :=
  (heapGet h p).Label.data ≤ (heapGet h q).Label.data

instance (h : Heap) : DecidableRel (ptrLabelLe h) := fun p q =>
  inferInstanceAs (Decidable ((heapGet h p).Label.data ≤ (heapGet h q).Label.data))

/-- Heap version of `MergeDistributions`: fold every pointer of every
input list through `mergeStepH` starting from the input heap and the
empty map, then flatten the map to its stored pointers and sort them by
label.  Returns the final heap and the result list (as pointers). -/
def MergeDistributionsH (h : Heap) (dists : List (List Ptr)) : Heap × List Ptr :=
  let st := dists.foldl (fun st dist => dist.foldl mergeStepH st) (h, [])
  (st.1, (st.2.map (fun kv => kv.2)).insertionSort (ptrLabelLe st.1))

/-- Go map assignment on the pointer-valued association map. -/
def ptrAssocPut (m : List (String × Ptr)) (k : String) (v : Ptr) :
    List (String × Ptr) :=
  if m.any (fun kv => kv.1 = k) then
    m.map (fun kv => if kv.1 = k then (k, v) else kv)
  else
    m ++ [(k, v)]

/-- Heap version of the `ToMap` loop.  Go evaluates the right-hand side
`copyDistributionEntry(d)` (an allocation) before the map assignment
`m[d.Label] = ...`, which panics while `m` is still the nil map. -/
def toMapLoopH (h : Heap) (m : Option (List (String × Ptr))) :
    List Ptr → Heap × Except String (Option (List (String × Ptr)))
  | [] => (h, Except.ok m)
  | dp :: rest =>
      let hp := copyDistributionEntryH h dp
      match m with
      | none => (hp.1, Except.error nilMapPanicMsg)
      | some mm =>
          toMapLoopH hp.1 (some (ptrAssocPut mm (heapGet h dp).Label hp.2)) rest

/-- Heap version of `DistributionList.ToMap`: the named return value
starts as the nil map. -/
def toMapH (h : Heap) (l : List Ptr) :
    Heap × Except String (Option (List (String × Ptr))) :=
  toMapLoopH h none l

/-! ### Frame lemmas -/

theorem take_set_of_le {α : Type} (l : List α) (j : Nat) (v : α) (n : Nat)
    (h : n ≤ j) : (l.set j v).take n = l.take n := by
  apply List.ext_getElem?
  intro m
  rw [List.getElem?_take, List.getElem?_take]
  by_cases hm : m < n
  · rw [if_pos hm, if_pos hm, List.getElem?_set_ne (by omega)]
  · rw [if_neg hm, if_neg hm]

theorem length_le_of_take_eq {α : Type} {l h0 : List α}
    (h : l.take h0.length = h0) : h0.length ≤ l.length := by
  have := congrArg List.length h
  rw [List.length_take] at this
  omega

/-- Invariant carried through the merge fold: the original heap is a
prefix of the current one, and every pointer stored in the accumulator
map points at a cell allocated at or after the end of the original
heap. -/
def FrameInv (h0 : Heap) (st : Heap × List (String × Ptr)) : Prop :=
  st.1.take h0.length = h0 ∧ ∀ kv ∈ st.2, h0.length ≤ kv.2

theorem frameInv_init (h0 : Heap) : FrameInv h0 (h0, []) :=
  ⟨List.take_length h0, by simp⟩

theorem frameInv_step {h0 : Heap} {st : Heap × List (String × Ptr)}
    (h : FrameInv h0 st) (ep : Ptr) : FrameInv h0 (mergeStepH st ep) := by
  obtain ⟨htake, hptrs⟩ := h
  rw [mergeStepH]
  rcases hfind : st.2.find? (fun kv => kv.1 = (heapGet st.1 ep).Label) with _ | kv
  · simp only [hfind]
    refine ⟨?_, ?_⟩
    · rw [copyDistributionEntryH]
      rw [List.take_append_of_le_length (length_le_of_take_eq htake), htake]
    · intro kv hkv
      rcases List.mem_append.mp hkv with hin | hin
      · exact hptrs kv hin
      · have : kv = ((heapGet st.1 ep).Label, st.1.length) := by simpa using hin
        rw [this]
        exact length_le_of_take_eq htake
  · simp only [hfind]
    refine ⟨?_, hptrs⟩
    rw [take_set_of_le _ _ _ _ (hptrs kv (List.mem_of_find?_eq_some hfind)), htake]

theorem foldl_preserve {σ α : Type} {P : σ → Prop} {f : σ → α → σ}
    (hstep : ∀ s a, P s → P (f s a)) :
    ∀ (l : List α) (s : σ), P s → P (l.foldl f s) := by
  intro l
  induction l with
  | nil => intro s hs; simpa using hs
  | cons a l' ih => intro s hs; exact ih (f s a) (hstep s a hs)

theorem mergeDistributionsH_frameInv (h0 : Heap) (dists : List (List Ptr)) :
    FrameInv h0 (dists.foldl (fun st dist => dist.foldl mergeStepH st) (h0, [])) := by
  refine foldl_preserve ?_ dists (h0, []) (frameInv_init h0)
  intro st dist hst
  exact foldl_preserve (P := FrameInv h0) (f := mergeStepH)
    (fun s p hs => frameInv_step hs p) dist st hst

theorem toMapLoopH_take (h0 : Heap) :
    ∀ (l : List Ptr) (h : Heap) (m : Option (List (String × Ptr))),
      h.take h0.length = h0 → h0.length ≤ h.length →
      (toMapLoopH h m l).1.take h0.length = h0 := by
  intro l
  induction l with
  | nil => intro h m htake _; simpa [toMapLoopH] using htake
  | cons dp rest ih =>
      intro h m htake hlen
      rcases m with _ | mm
      · show ((copyDistributionEntryH h dp).1, (Except.error nilMapPanicMsg :
          Except String (Option (List (String × Ptr))))).1.take h0.length = h0
        rw [copyDistributionEntryH]
        simpa using List.take_append_of_le_length hlen ▸ htake
      · show (toMapLoopH (copyDistributionEntryH h dp).1
            (some (ptrAssocPut mm (heapGet h dp).Label
              (copyDistributionEntryH h dp).2)) rest).1.take h0.length = h0
        refine ih _ _ ?_ ?_
        · rw [copyDistributionEntryH]
          rw [List.take_append_of_le_length hlen, htake]
        · rw [copyDistributionEntryH]
          simpa using Nat.le_trans hlen (by simp)

/-! ### Claim C6 -/

/-- C6: the structural transformations never mutate an input entry in
place.  In the heap model, running `MergeDistributions` or `ToMap` from
any initial heap leaves every pre-existing cell (in particular every
entry of the input lists) bit-for-bit unchanged: the original heap is a
prefix of the final heap, all writes hitting only cells allocated by
`copyDistributionEntry` during the call.  For `ToMap` the run aborts by
the nil-map panic on the first entry, allocating only the one copy and
writing nothing. -/
theorem C6_inputs_never_mutated :
    (∀ (h : Heap) (dists : List (List Ptr)),
      (MergeDistributionsH h dists).1.take h.length = h) ∧
    (∀ (h : Heap) (l : List Ptr),
      (toMapH h l).1.take h.length = h) ∧
    (∀ (h : Heap) (dists : List (List Ptr)) (p : Ptr), p < h.length →
      heapGet (MergeDistributionsH h dists).1 p = heapGet h p) := by
  refine ⟨?_, ?_, ?_⟩
  · intro h dists
    exact (mergeDistributionsH_frameInv h dists).1
  · intro h l
    exact toMapLoopH_take h l h none (List.take_length h) (Nat.le_refl _)
  · intro h dists p hp
    have ht := (mergeDistributionsH_frameInv h dists).1
    have hq : (MergeDistributionsH h dists).1[p]? = h[p]? := by
      have hc := congrArg (fun l : Heap => l[p]?) ht
      simpa [List.getElem?_take, hp] using hc
    rw [heapGet, heapGet, List.getD_eq_getElem?_getD, List.getD_eq_getElem?_getD, hq]

/-- Witness for C6 at a concrete input: merging the list that mentions
heap cells 0, 1 and 0 again (a duplicate label collision forcing a count
accumulation) leaves cell 0 unchanged. -/
theorem C6_inputs_never_mutated_witness :
    heapGet (MergeDistributionsH [⟨1, "A", 2⟩, ⟨3, "B", 4⟩] [[0, 1, 0]]).1 0 =
      heapGet [⟨1, "A", 2⟩, ⟨3, "B", 4⟩] 0 :=
  C6_inputs_never_mutated.2.2 [⟨1, "A", 2⟩, ⟨3, "B", 4⟩] [[0, 1, 0]] 0 (by decide)

/-! ### Query adapter: queryDistribution and convertDistribution -/

/-- Loop of `func convertDistribution(rows *sql.Rows, fn
distributionConvertor)`: iterate the rows in order; if the converter
fails on a row, return `nil, err` at once (discarding the entries
accumulated so far), otherwise append the converted entry and
continue. -/
def convertDistributionLoop {Row Err : Type}
    (fn : Row → Except Err DistributionEntry) :
    List Row → DistributionList → Except Err DistributionList
  | [], entries => Except.ok entries
  | r :: rs, entries =>
      match fn r with
      | Except.error e => Except.error e
      | Except.ok entry => convertDistributionLoop fn rs (entries ++ [entry])

/-- Translation of `convertDistribution`, starting from the empty entry
list. -/
def convertDistribution {Row Err : Type} (rows : List Row)
    (fn : Row → Except Err DistributionEntry) : Except Err DistributionList :=
  convertDistributionLoop fn rows []

/-- Translation of `func (c *Catalog) queryDistribution(sql string, fn
distributionConvertor)`: run the query; if it fails, return the error
(no cursor was opened, so there is nothing to close).  Otherwise `defer
rows.Close()` is registered and runs on every exit path out of the
remaining body; the Boolean in the result records whether the open
cursor was closed. -/
def queryDistribution {Row Err : Type} (queryResult : Except Err (List Row))
    (fn : Row → Except Err DistributionEntry) :
    Except Err DistributionList × Bool :=
  match queryResult with
  | Except.error e => (Except.error e, false)
  | Except.ok rows => (convertDistribution rows fn, true)

theorem convertDistributionLoop_error {Row Err : Type}
    (fn : Row → Except Err DistributionEntry) (r : Row) (e : Err)
    (hr : fn r = Except.error e) :
    ∀ (pre : List Row), (∀ x ∈ pre, ∃ en, fn x = Except.ok en) →
      ∀ (post : List Row) (acc : DistributionList),
        convertDistributionLoop fn (pre ++ r :: post) acc = Except.error e := by
  intro pre
  induction pre with
  | nil =>
      intro _ post acc
      show convertDistributionLoop fn (r :: post) acc = Except.error e
      rw [convertDistributionLoop, hr]
  | cons x pre' ih =>
      intro hok post acc
      rcases hok x (by simp) with ⟨en, hen⟩
      show convertDistributionLoop fn (x :: (pre' ++ r :: post)) acc = Except.error e
      rw [convertDistributionLoop, hen]
      exact ih (fun y hy => hok y (by simp [hy])) post (acc ++ [en])

/-! ### Claim C4 -/

/-- C4: if the row converter fails on any row, the distribution query
returns exactly that error with no partial list (the entries already
converted are discarded), and the open cursor is closed on every exit
path once the query has opened it, error path included; when the query
itself fails there is no open cursor. -/
theorem C4_conversion_error_aborts_and_closes_cursor :
    ∀ (Row Err : Type) (fn : Row → Except Err DistributionEntry),
      (∀ rows : List Row, (queryDistribution (Except.ok rows) fn).2 = true) ∧
      (∀ er : Err, queryDistribution (Except.error er) fn =
        (Except.error er, false)) ∧
      (∀ (pre post : List Row) (r : Row) (e : Err),
        (∀ x ∈ pre, ∃ en, fn x = Except.ok en) → fn r = Except.error e →
        queryDistribution (Except.ok (pre ++ r :: post)) fn =
          (Except.error e, true)) := by
  intro Row Err fn
  refine ⟨fun rows => rfl, fun er => rfl, ?_⟩
  intro pre post r e hok hr
  show (convertDistribution (pre ++ r :: post) fn, true) = (Except.error e, true)
  rw [convertDistribution, convertDistributionLoop_error fn r e hr pre hok post []]

/-- Example converter for witnesses: succeeds on even values, fails on
odd ones. -/
def exampleConvertor (n : Int) : Except String DistributionEntry :=
  if n % 2 = 0 then Except.ok ⟨n, "even", 1⟩
  else Except.error "conversion failed"

/-- Witness for C4 at a concrete input: rows 0 and 2 convert fine, row 3
fails, so the query aborts with the conversion error (the two entries
already built are discarded) and the cursor is still closed. -/
theorem C4_conversion_error_aborts_and_closes_cursor_witness :
    queryDistribution (Except.ok [0, 2, 3, 4]) exampleConvertor =
      (Except.error "conversion failed", true) := by
  have h := ((C4_conversion_error_aborts_and_closes_cursor Int String
    exampleConvertor).2.2 [0, 2] [4] 3 "conversion failed"
    (by
      intro x hx
      rcases (by simpa using hx : x = 0 ∨ x = 2) with rfl | rfl
      · exact ⟨⟨0, "even", 1⟩, rfl⟩
      · exact ⟨⟨2, "even", 1⟩, rfl⟩)
    rfl)
  simpa using h

/-! ### Row converters of the named queries (claim C10) -/

/-- Model of a row scanned by `defaultDistributionConvertor`: an id, a
nullable string label (Go `null.String`, whose `.String` field is the
empty string when the SQL value is NULL) and a count.  The scan itself
is modelled as already typed. -/
structure DefaultRow where
  id : Int
  label : Option String
  count : Int

/-- Translation of `defaultDistributionConvertor`: the entry takes its
`Id` directly from the row's first scanned column. -/
def defaultDistributionConvertor (row : DefaultRow) :
    Except String DistributionEntry :=
  Except.ok { Id := row.id, Label := row.label.getD "", Count := row.count }

/-- Model of the row-converter closure of `GetApertureDistribution`: it
scans `(aperture, count)` and builds `DistributionEntry{Label:
fmt.Sprintf("%.1f", ApertureToFNumber(aperture)), Count: count}` — the
`Id` field is omitted from the struct literal, so it is Go's zero value
0.  The float computation is the abstract parameter `fmt1`. -/
def apertureDistributionConvertor {F : Type} (fmt1 : F → String)
    (row : F × Int) : Except String DistributionEntry :=
  Except.ok { Id := 0, Label := fmt1 row.1, Count := row.2 }

/-- Model of the row-converter closure of
`GetExposureTimeDistribution`: it scans `(shutterSpeed, count)` and
builds `DistributionEntry{Label: ShutterSpeedToExposureTime(shutter),
Count: count}` — again with no `Id` in the struct literal.  The float
conversion is the abstract parameter `g`. -/
def exposureTimeDistributionConvertor {F : Type} (g : F → String)
    (row : F × Int) : Except String DistributionEntry :=
  Except.ok { Id := 0, Label := g row.1, Count := row.2 }

/-! ### Claim C10 -/

/-- C10: the aperture and exposure-time row converters always produce
entries with `Id = 0` (the struct literal omits the field), whatever the
scanned values and whatever the float conversion does, unlike
`defaultDistributionConvertor` (used by the lens, camera and keyword
queries), which copies the row's id column into `Id`. -/
theorem C10_aperture_exposure_converters_zero_id :
    (∀ (F : Type) (fmt1 : F → String) (row : F × Int) (en : DistributionEntry),
      apertureDistributionConvertor fmt1 row = Except.ok en → en.Id = 0) ∧
    (∀ (F : Type) (g : F → String) (row : F × Int) (en : DistributionEntry),
      exposureTimeDistributionConvertor g row = Except.ok en → en.Id = 0) ∧
    (∀ (row : DefaultRow) (en : DistributionEntry),
      defaultDistributionConvertor row = Except.ok en → en.Id = row.id) := by
  refine ⟨?_, ?_, ?_⟩
  · intro F fmt1 row en h
    injection h with h2
    rw [← h2]
  · intro F g row en h
    injection h with h2
    rw [← h2]
  · intro row en h
    injection h with h2
    rw [← h2]

/-- Witness for C10 at concrete inputs: a converted aperture row and
exposure row carry `Id` 0, while a default-converted lens row keeps its
row id 7. -/
theorem C10_aperture_exposure_converters_zero_id_witness :
    (⟨0, "2.8", 5⟩ : DistributionEntry).Id = 0 ∧
    (⟨0, "1/250", 3⟩ : DistributionEntry).Id = 0 ∧
    (⟨7, "lens", 2⟩ : DistributionEntry).Id = 7 :=
  ⟨C10_aperture_exposure_converters_zero_id.1 Unit (fun _ => "2.8") ((), 5)
      ⟨0, "2.8", 5⟩ rfl,
    C10_aperture_exposure_converters_zero_id.2.1 Unit (fun _ => "1/250") ((), 3)
      ⟨0, "1/250", 3⟩ rfl,
    C10_aperture_exposure_converters_zero_id.2.2 ⟨7, some "lens", 2⟩
      ⟨7, "lens", 2⟩ rfl⟩

/-! ### Sunburst stats (claim C7)

A record returned by `queryStringMap` is a Go `map[string]string`,
modelled as an association list with one pair per key.  The float
machinery (`strconv.ParseFloat`, `ApertureToFNumber` plus `%.1f`
formatting, `ShutterSpeedToExposureTime`) is abstracted into the
parameters `parseFl`, `apFmt` and `shutterFmt`; the structure of the
rewriting — which keys are touched, the literal `"f/"` prefix and
`"mm"` suffix, the present-and-non-empty guards, the abort on a parse
error — is taken from the source. -/

abbrev SunburstRecord := List (String × String)

/-- Go map read `v, ok := record[k]`. -/
def recGet (rec : SunburstRecord) (k : String) : Option String :=
  (rec.find? (fun kv => kv.1 = k)).map (fun kv => kv.2)

/-- Go map write `record[k] = v` for a key already present. -/
def recSet (rec : SunburstRecord) (k v : String) : SunburstRecord :=
  rec.map (fun kv => if kv.1 = k then (k, v) else kv)

/-- The aperture branch of the record loop in `GetSunburstStats`:
`if apertureStr, ok := record["aperture"]; ok && apertureStr != "" {
aperture, err := strconv.ParseFloat(...); if err != nil { return data,
err }; record["aperture"] = fmt.Sprintf("f/%.1f",
ApertureToFNumber(aperture)) }`. -/
def convertApertureField {F : Type} (parseFl : String → Option F)
    (apFmt : F → String) (rec : SunburstRecord) : SunburstRecord × Option String :=
  match recGet rec "aperture" with
  | some s =>
      if s = "" then (rec, none)
      else
        match parseFl s with
        | none => (rec, some "invalid float syntax")
        | some x => (recSet rec "aperture" ("f/" ++ apFmt x), none)
  | none => (rec, none)

/-- The exposure branch: on a present non-empty value, parse it and
replace it with `ShutterSpeedToExposureTime(exposure)`. -/
def convertExposureField {F : Type} (parseFl : String → Option F)
    (shutterFmt : F → String) (rec : SunburstRecord) :
    SunburstRecord × Option String :=
  match recGet rec "exposure" with
  | some s =>
      if s = "" then (rec, none)
      else
        match parseFl s with
        | none => (rec, some "invalid float syntax")
        | some x => (recSet rec "exposure" (shutterFmt x), none)
  | none => (rec, none)

/-- The focal-length branch: on a present non-empty value, append the
unit suffix `"mm"`; no error path. -/
def convertFocalLengthField (rec : SunburstRecord) : SunburstRecord :=
  match recGet rec "focal_length" with
  | some s => if s = "" then rec else recSet rec "focal_length" (s ++ "mm")
  | none => rec

/-- One iteration of the record loop of `GetSunburstStats`: the three
branches run in source order, aborting on the first parse error. -/
def convertSunburstRecord {F : Type} (parseFl : String → Option F)
    (apFmt shutterFmt : F → String) (rec : SunburstRecord) :
    SunburstRecord × Option String :=
  let a := convertApertureField parseFl apFmt rec
  match a.2 with
  | some e => (a.1, some e)
  | none =>
      let b := convertExposureField parseFl shutterFmt a.1
      match b.2 with
      | some e => (b.1, some e)
      | none => (convertFocalLengthField b.1, none)

/-- The record loop of `GetSunburstStats` over the whole query result:
records are rewritten in place; on an error the loop stops and the data
slice (with the records converted so far) is returned with the
error. -/
def sunburstLoop {F : Type} (parseFl : String → Option F)
    (apFmt shutterFmt : F → String) :
    List SunburstRecord → List SunburstRecord × Option String
  | [] => ([], none)
  | rec :: rest =>
      match convertSunburstRecord parseFl apFmt shutterFmt rec with
      | (r1, some e) => (r1 :: rest, some e)
      | (r1, none) =>
          let r := sunburstLoop parseFl apFmt shutterFmt rest
          (r1 :: r.1, r.2)

/-- Translation of `func (c *Catalog) GetSunburstStats()`: on a query
error return it with no data, otherwise run the record loop. -/
def GetSunburstStats {F : Type} (parseFl : String → Option F)
    (apFmt shutterFmt : F → String)
    (queryResult : Except String (List SunburstRecord)) :
    List SunburstRecord × Option String :=
  match queryResult with
  | Except.error e => ([], some e)
  | Except.ok data => sunburstLoop parseFl apFmt shutterFmt data

theorem recGet_cons_of_eq {kv : String × String} {rest : SunburstRecord}
    {k : String} (h : kv.1 = k) : recGet (kv :: rest) k = some kv.2 := by
  rw [recGet, List.find?_cons_of_pos rest (by simpa using h)]
  rfl

theorem recGet_cons_of_ne {kv : String × String} {rest : SunburstRecord}
    {k : String} (h : kv.1 ≠ k) : recGet (kv :: rest) k = recGet rest k := by
  rw [recGet, List.find?_cons_of_neg rest (by simpa using h)]
  rfl

theorem recGet_recSet_ne (rec : SunburstRecord) (k v k' : String) (h : k' ≠ k) :
    recGet (recSet rec k v) k' = recGet rec k' := by
  induction rec with
  | nil => rfl
  | cons kv rest ih =>
      by_cases hk : kv.1 = k
      · rw [show recSet (kv :: rest) k v = (k, v) :: recSet rest k v from by
          simp [recSet, hk]]
        rw [recGet_cons_of_ne (show ((k, v) : String × String).1 ≠ k' from
          fun hc => h hc.symm)]
        rw [recGet_cons_of_ne (show kv.1 ≠ k' from by
          rw [hk]; exact fun hc => h hc.symm)]
        exact ih
      · rw [show recSet (kv :: rest) k v = kv :: recSet rest k v from by
          simp [recSet, hk]]
        by_cases h2 : kv.1 = k'
        · rw [recGet_cons_of_eq h2, recGet_cons_of_eq h2]
        · rw [recGet_cons_of_ne h2, recGet_cons_of_ne h2]
          exact ih

theorem recGet_recSet_self (rec : SunburstRecord) (k v : String)
    (h : (recGet rec k).isSome) : recGet (recSet rec k v) k = some v := by
  induction rec with
  | nil => simp [recGet] at h
  | cons kv rest ih =>
      by_cases hk : kv.1 = k
      · rw [show recSet (kv :: rest) k v = (k, v) :: recSet rest k v from by
          simp [recSet, hk]]
        exact recGet_cons_of_eq rfl
      · rw [show recSet (kv :: rest) k v = kv :: recSet rest k v from by
          simp [recSet, hk]]
        rw [recGet_cons_of_ne hk]
        rw [recGet_cons_of_ne hk] at h
        exact ih h

theorem convertApertureField_get_ne {F : Type} (parseFl : String → Option F)
    (apFmt : F → String) (rec : SunburstRecord) (k : String)
    (hk : k ≠ "aperture") :
    recGet (convertApertureField parseFl apFmt rec).1 k = recGet rec k := by
  rcases hg : recGet rec "aperture" with _ | s
  · simp [convertApertureField, hg]
  · by_cases hs : s = ""
    · simp [convertApertureField, hg, hs]
    · rcases hx : parseFl s with _ | x
      · simp [convertApertureField, hg, hs, hx]
      · simp only [convertApertureField, hg, hs, hx]
        exact recGet_recSet_ne rec "aperture" _ k hk

theorem convertApertureField_snd_eq_none {F : Type} (parseFl : String → Option F)
    (apFmt : F → String) (rec : SunburstRecord)
    (h : ∀ s, recGet rec "aperture" = some s → s ≠ "" → (parseFl s).isSome) :
    (convertApertureField parseFl apFmt rec).2 = none := by
  rcases hg : recGet rec "aperture" with _ | s
  · simp [convertApertureField, hg]
  · by_cases hs : s = ""
    · simp [convertApertureField, hg, hs]
    · rcases hx : parseFl s with _ | x
      · exact absurd (h s hg hs) (by simp [hx])
      · simp [convertApertureField, hg, hs, hx]

theorem convertApertureField_converted {F : Type} (parseFl : String → Option F)
    (apFmt : F → String) (rec : SunburstRecord) (s : String) (x : F)
    (hg : recGet rec "aperture" = some s) (hs : s ≠ "")
    (hx : parseFl s = some x) :
    recGet (convertApertureField parseFl apFmt rec).1 "aperture" =
      some ("f/" ++ apFmt x) := by
  simp only [convertApertureField, hg, hs, hx]
  exact recGet_recSet_self rec "aperture" _ (by simp [hg])

theorem convertApertureField_untouched {F : Type} (parseFl : String → Option F)
    (apFmt : F → String) (rec : SunburstRecord)
    (h : recGet rec "aperture" = none ∨ recGet rec "aperture" = some "") :
    (convertApertureField parseFl apFmt rec).1 = rec := by
  rcases h with h | h
  · simp [convertApertureField, h]
  · simp [convertApertureField, h]

theorem convertExposureField_get_ne {F : Type} (parseFl : String → Option F)
    (shutterFmt : F → String) (rec : SunburstRecord) (k : String)
    (hk : k ≠ "exposure") :
    recGet (convertExposureField parseFl shutterFmt rec).1 k = recGet rec k := by
  rcases hg : recGet rec "exposure" with _ | s
  · simp [convertExposureField, hg]
  · by_cases hs : s = ""
    · simp [convertExposureField, hg, hs]
    · rcases hx : parseFl s with _ | x
      · simp [convertExposureField, hg, hs, hx]
      · simp only [convertExposureField, hg, hs, hx]
        exact recGet_recSet_ne rec "exposure" _ k hk

theorem convertExposureField_snd_eq_none {F : Type} (parseFl : String → Option F)
    (shutterFmt : F → String) (rec : SunburstRecord)
    (h : ∀ s, recGet rec "exposure" = some s → s ≠ "" → (parseFl s).isSome) :
    (convertExposureField parseFl shutterFmt rec).2 = none := by
  rcases hg : recGet rec "exposure" with _ | s
  · simp [convertExposureField, hg]
  · by_cases hs : s = ""
    · simp [convertExposureField, hg, hs]
    · rcases hx : parseFl s with _ | x
      · exact absurd (h s hg hs) (by simp [hx])
      · simp [convertExposureField, hg, hs, hx]

theorem convertExposureField_converted {F : Type} (parseFl : String → Option F)
    (shutterFmt : F → String) (rec : SunburstRecord) (s : String) (x : F)
    (hg : recGet rec "exposure" = some s) (hs : s ≠ "")
    (hx : parseFl s = some x) :
    recGet (convertExposureField parseFl shutterFmt rec).1 "exposure" =
      some (shutterFmt x) := by
  simp only [convertExposureField, hg, hs, hx]
  exact recGet_recSet_self rec "exposure" _ (by simp [hg])

theorem convertExposureField_untouched {F : Type} (parseFl : String → Option F)
    (shutterFmt : F → String) (rec : SunburstRecord)
    (h : recGet rec "exposure" = none ∨ recGet rec "exposure" = some "") :
    (convertExposureField parseFl shutterFmt rec).1 = rec := by
  rcases h with h | h
  · simp [convertExposureField, h]
  · simp [convertExposureField, h]

theorem convertFocalLengthField_get_ne (rec : SunburstRecord) (k : String)
    (hk : k ≠ "focal_length") :
    recGet (convertFocalLengthField rec) k = recGet rec k := by
  rcases hg : recGet rec "focal_length" with _ | s
  · simp [convertFocalLengthField, hg]
  · by_cases hs : s = ""
    · simp [convertFocalLengthField, hg, hs]
    · simp only [convertFocalLengthField, hg, hs]
      exact recGet_recSet_ne rec "focal_length" _ k hk

theorem convertFocalLengthField_converted (rec : SunburstRecord) (s : String)
    (hg : recGet rec "focal_length" = some s) (hs : s ≠ "") :
    recGet (convertFocalLengthField rec) "focal_length" = some (s ++ "mm") := by
  simp only [convertFocalLengthField, hg, hs]
  exact recGet_recSet_self rec "focal_length" _ (by simp [hg])

theorem convertFocalLengthField_untouched (rec : SunburstRecord)
    (h : recGet rec "focal_length" = none ∨ recGet rec "focal_length" = some "") :
    convertFocalLengthField rec = rec := by
  rcases h with h | h
  · simp [convertFocalLengthField, h]
  · simp [convertFocalLengthField, h]

/-- Parse-success condition on one record: every present non-empty
aperture or exposure value parses as a float. -/
def SunburstParsesOk {F : Type} (parseFl : String → Option F)
    (rec : SunburstRecord) : Prop :=
  (∀ s, recGet rec "aperture" = some s → s ≠ "" → (parseFl s).isSome) ∧
  (∀ s, recGet rec "exposure" = some s → s ≠ "" → (parseFl s).isSome)

theorem exposure_hyp_transfer {F : Type} (parseFl : String → Option F)
    (apFmt : F → String) (rec : SunburstRecord)
    (h : SunburstParsesOk parseFl rec) :
    ∀ s, recGet (convertApertureField parseFl apFmt rec).1 "exposure" = some s →
      s ≠ "" → (parseFl s).isSome := by
  intro s hs hne
  rw [convertApertureField_get_ne parseFl apFmt rec "exposure" (by decide)] at hs
  exact h.2 s hs hne

theorem convertSunburstRecord_snd_eq_none {F : Type} (parseFl : String → Option F)
    (apFmt shutterFmt : F → String) (rec : SunburstRecord)
    (h : SunburstParsesOk parseFl rec) :
    (convertSunburstRecord parseFl apFmt shutterFmt rec).2 = none := by
  have ha := convertApertureField_snd_eq_none parseFl apFmt rec h.1
  have hb := convertExposureField_snd_eq_none parseFl shutterFmt
    (convertApertureField parseFl apFmt rec).1 (exposure_hyp_transfer parseFl apFmt rec h)
  simp [convertSunburstRecord, ha, hb]

theorem convertSunburstRecord_fst_eq {F : Type} (parseFl : String → Option F)
    (apFmt shutterFmt : F → String) (rec : SunburstRecord)
    (h : SunburstParsesOk parseFl rec) :
    (convertSunburstRecord parseFl apFmt shutterFmt rec).1 =
      convertFocalLengthField
        (convertExposureField parseFl shutterFmt
          (convertApertureField parseFl apFmt rec).1).1 := by
  have ha := convertApertureField_snd_eq_none parseFl apFmt rec h.1
  have hb := convertExposureField_snd_eq_none parseFl shutterFmt
    (convertApertureField parseFl apFmt rec).1 (exposure_hyp_transfer parseFl apFmt rec h)
  simp [convertSunburstRecord, ha, hb]

theorem sunburstLoop_success {F : Type} (parseFl : String → Option F)
    (apFmt shutterFmt : F → String) :
    ∀ data : List SunburstRecord, (∀ rec ∈ data, SunburstParsesOk parseFl rec) →
      sunburstLoop parseFl apFmt shutterFmt data =
        (data.map (fun rec => (convertSunburstRecord parseFl apFmt shutterFmt rec).1),
          none) := by
  intro data
  induction data with
  | nil => intro _; rfl
  | cons rec rest ih =>
      intro h
      have hs := convertSunburstRecord_snd_eq_none parseFl apFmt shutterFmt rec
        (h rec (by simp))
      have hrest := ih (fun r hr => h r (by simp [hr]))
      rcases hc2 : convertSunburstRecord parseFl apFmt shutterFmt rec with ⟨r1, err⟩
      rw [hc2] at hs
      simp only at hs
      subst hs
      simp [sunburstLoop, hc2, hrest]

/-! ### Claim C7 -/

/-- C7: over any successfully parsed query result, `GetSunburstStats`
rewrites each record in place, converting exactly the three columns:
a present non-empty "aperture" value parses to `x` and becomes `"f/"`
followed by the formatted converted f-number of `x`; a present
non-empty "exposure" value parses to `x` and becomes the converted
exposure-time string of `x`; a present non-empty "focal_length" value
gets the suffix `"mm"`; an absent or empty column is left untouched,
and every other column is left unchanged.  The statement quantifies
over all float-parsing and float-formatting functions. -/
theorem C7_sunburst_rewrites_exactly_three_columns :
    ∀ (F : Type) (parseFl : String → Option F) (apFmt shutterFmt : F → String)
      (data : List SunburstRecord),
      (∀ rec ∈ data, SunburstParsesOk parseFl rec) →
      GetSunburstStats parseFl apFmt shutterFmt (Except.ok data) =
        (data.map (fun rec =>
          (convertSunburstRecord parseFl apFmt shutterFmt rec).1), none) ∧
      ∀ rec ∈ data,
        (∀ k, k ≠ "aperture" → k ≠ "exposure" → k ≠ "focal_length" →
          recGet (convertSunburstRecord parseFl apFmt shutterFmt rec).1 k =
            recGet rec k) ∧
        (∀ s x, recGet rec "aperture" = some s → s ≠ "" → parseFl s = some x →
          recGet (convertSunburstRecord parseFl apFmt shutterFmt rec).1 "aperture" =
            some ("f/" ++ apFmt x)) ∧
        ((recGet rec "aperture" = none ∨ recGet rec "aperture" = some "") →
          recGet (convertSunburstRecord parseFl apFmt shutterFmt rec).1 "aperture" =
            recGet rec "aperture") ∧
        (∀ s x, recGet rec "exposure" = some s → s ≠ "" → parseFl s = some x →
          recGet (convertSunburstRecord parseFl apFmt shutterFmt rec).1 "exposure" =
            some (shutterFmt x)) ∧
        ((recGet rec "exposure" = none ∨ recGet rec "exposure" = some "") →
          recGet (convertSunburstRecord parseFl apFmt shutterFmt rec).1 "exposure" =
            recGet rec "exposure") ∧
        (∀ s, recGet rec "focal_length" = some s → s ≠ "" →
          recGet (convertSunburstRecord parseFl apFmt shutterFmt rec).1 "focal_length" =
            some (s ++ "mm")) ∧
        ((recGet rec "focal_length" = none ∨ recGet rec "focal_length" = some "") →
          recGet (convertSunburstRecord parseFl apFmt shutterFmt rec).1 "focal_length" =
            recGet rec "focal_length") := by
  intro F parseFl apFmt shutterFmt data hall
  constructor
  · show sunburstLoop parseFl apFmt shutterFmt data = _
    exact sunburstLoop_success parseFl apFmt shutterFmt data hall
  intro rec hrec
  have h := hall rec hrec
  have hfst := convertSunburstRecord_fst_eq parseFl apFmt shutterFmt rec h
  refine ⟨?_, ?_, ?_, ?_, ?_, ?_, ?_⟩
  · intro k hka hke hkf
    rw [hfst, convertFocalLengthField_get_ne _ k hkf,
      convertExposureField_get_ne _ _ _ k hke,
      convertApertureField_get_ne _ _ _ k hka]
  · intro s x hg hs hx
    rw [hfst, convertFocalLengthField_get_ne _ "aperture" (by decide),
      convertExposureField_get_ne _ _ _ "aperture" (by decide)]
    exact convertApertureField_converted parseFl apFmt rec s x hg hs hx
  · intro hg
    have hu := convertApertureField_untouched parseFl apFmt rec hg
    rw [hfst, convertFocalLengthField_get_ne _ "aperture" (by decide),
      convertExposureField_get_ne _ _ _ "aperture" (by decide), hu]
  · intro s x hg hs hx
    rw [hfst, convertFocalLengthField_get_ne _ "exposure" (by decide)]
    refine convertExposureField_converted parseFl shutterFmt _ s x ?_ hs hx
    rw [convertApertureField_get_ne _ _ _ "exposure" (by decide)]
    exact hg
  · intro hg
    rw [hfst, convertFocalLengthField_get_ne _ "exposure" (by decide)]
    have hu : (convertExposureField parseFl shutterFmt
        (convertApertureField parseFl apFmt rec).1).1 =
        (convertApertureField parseFl apFmt rec).1 := by
      refine convertExposureField_untouched _ _ _ ?_
      rw [convertApertureField_get_ne _ _ _ "exposure" (by decide)]
      exact hg
    rw [hu, convertApertureField_get_ne _ _ _ "exposure" (by decide)]
  · intro s hg hs
    rw [hfst]
    refine convertFocalLengthField_converted _ s ?_ hs
    rw [convertExposureField_get_ne _ _ _ "focal_length" (by decide),
      convertApertureField_get_ne _ _ _ "focal_length" (by decide)]
    exact hg
  · intro hg
    rw [hfst]
    have hpre : recGet (convertExposureField parseFl shutterFmt
        (convertApertureField parseFl apFmt rec).1).1 "focal_length" =
        recGet rec "focal_length" := by
      rw [convertExposureField_get_ne _ _ _ "focal_length" (by decide),
        convertApertureField_get_ne _ _ _ "focal_length" (by decide)]
    have hu := convertFocalLengthField_untouched
      (convertExposureField parseFl shutterFmt
        (convertApertureField parseFl apFmt rec).1).1 (by rw [hpre]; exact hg)
    rw [hu, hpre]

/-- Witness for C7 at a concrete record (with the identity parse and
simple formatters): aperture "5" becomes "f/5", exposure "8" becomes
"1/8", focal length "35" becomes "35mm", and the camera, lens and count
columns are untouched. -/
theorem C7_sunburst_rewrites_exactly_three_columns_witness :
    GetSunburstStats (fun t : String => some t) (fun t => t) (fun t => "1/" ++ t)
      (Except.ok [[("count", "3"), ("camera", "X"), ("lens", "L"),
        ("aperture", "5"), ("focal_length", "35"), ("exposure", "8")]]) =
      ([[("count", "3"), ("camera", "X"), ("lens", "L"),
        ("aperture", "f/5"), ("focal_length", "35mm"), ("exposure", "1/8")]],
        none) := by
  have h := (C7_sunburst_rewrites_exactly_three_columns String
    (fun t => some t) (fun t => t) (fun t => "1/" ++ t)
    [[("count", "3"), ("camera", "X"), ("lens", "L"),
      ("aperture", "5"), ("focal_length", "35"), ("exposure", "8")]]
    (fun rec _ => ⟨fun s _ _ => rfl, fun s _ _ => rfl⟩)).1
  rw [h]
  rfl

/-! ### Edit-count distribution (claim C8)

The SQL of `GetEditCountDistribution` is a literal in src/, executed by
the external store (SQLite).  It is modelled under standard SQL
semantics over the step table `Adobe_libraryImageDevelopHistoryStep`,
represented as the list of its rows' image ids (a photo with no edit
steps has no row at all):

* the inner `SELECT count(*) as edit_count, image ... GROUP BY image`
  yields one row per distinct image with its row count; its `ORDER BY
  edit_count DESC` orders only the subquery and does not constrain the
  outer result;
* `WHERE edit_count > 1` keeps only counts strictly greater than 1;
* the outer `SELECT edit_count, edit_count, count(*) ... GROUP BY
  edit_count` yields one row per distinct kept count with the number of
  images having it, with `id` and `label` both the edit count.  It has
  no `ORDER BY`, so SQL leaves the output order unspecified; the model
  uses ascending group-key order, the order SQLite's GROUP BY sorter
  produces. -/

/-- Number of photos (distinct images in the step table) having exactly
`k` edit-history steps. -/
def photosWithEditCount (steps : List Nat) (k : Nat) : Nat :=
  (steps.dedup.filter (fun img => steps.count img = k)).length

/-- Model of `GetEditCountDistribution` as described above. -/
def editCountDistribution (steps : List Nat) : DistributionList :=
  let perImage := steps.dedup.map (fun img => steps.count img)
  let filtered := perImage.filter (fun c => 1 < c)
  let keys := filtered.dedup.insertionSort (fun a b => a ≤ b)
  keys.map (fun (k : Nat) =>
    { Id := (k : Int), Label := toString k, Count := (filtered.count k : Int) })

/-- The step table of the synthetic dataset of the claim: seven photos
with {0,1,1,2,2,2,5} edit steps — photo 1 has no steps (no rows),
photos 2 and 3 have one step, photos 4, 5 and 6 have two steps, photo 7
has five. -/
def syntheticSteps : List Nat := [2, 3, 4, 4, 5, 5, 6, 6, 7, 7, 7, 7, 7]

/-! ### Claim C8 -/

/-- C8 counterexample: on the synthetic dataset {0,1,1,2,2,2,5} the
query yields the bucket list [(2 ↦ 3), (5 ↦ 1)] — the bucket for edit
count 2 holds 3 photos, not 2 as the claim states, no bucket (2 ↦ 2)
exists, and the output (in the canonical GROUP BY order, the query
having no outer ORDER BY) is ascending, not descending, by edit
count. -/
theorem C8_synthetic_dataset_refutes_claim :
    editCountDistribution syntheticSteps = [⟨2, "2", 3⟩, ⟨5, "5", 1⟩] ∧
    (∀ e ∈ editCountDistribution syntheticSteps, ¬ (e.Id = 2 ∧ e.Count = 2)) ∧
    editCountDistribution syntheticSteps ≠ [⟨5, "5", 1⟩, ⟨2, "2", 2⟩] ∧
    ¬ (editCountDistribution syntheticSteps).Pairwise (fun a b => b.Id < a.Id) := by
  refine ⟨by decide, by decide, by decide, by decide⟩

/-- C8 (amended): every bucket of the edit-count distribution has edit
count strictly greater than 1 (photos with zero or one edit steps
contribute no bucket — zero-step photos have no rows at all and
one-step photos are dropped by the WHERE clause), each bucket counts
the photos with exactly that many edit steps, every edit count above 1
carried by some photo gets its bucket, and the buckets are ordered
ascending by edit count (the query has no outer ORDER BY, so the order
is the engine's GROUP BY order, not the descending order the claim
states); the synthetic dataset {0,1,1,2,2,2,5} yields exactly the
buckets (2 ↦ 3) and (5 ↦ 1). -/
theorem editCountDistribution_eq (steps : List Nat) :
    editCountDistribution steps =
      (((steps.dedup.map (fun img => steps.count img)).filter
        (fun c => 1 < c)).dedup.insertionSort (fun a b => a ≤ b)).map
        (fun (k : Nat) =>
          { Id := (k : Int), Label := toString k,
            Count := (((steps.dedup.map (fun img => steps.count img)).filter
              (fun c => 1 < c)).count k : Int) }) := rfl

theorem C8_edit_count_buckets :
    (∀ (steps : List Nat), ∀ e ∈ editCountDistribution steps, ∃ k : Nat,
      1 < k ∧ e.Id = (k : Int) ∧ e.Label = toString k ∧
      e.Count = (photosWithEditCount steps k : Int)) ∧
    (∀ (steps : List Nat) (k : Nat), 1 < k → photosWithEditCount steps k ≠ 0 →
      ∃ e ∈ editCountDistribution steps, e.Id = (k : Int)) ∧
    (∀ steps : List Nat,
      (editCountDistribution steps).Pairwise (fun a b => a.Id < b.Id)) ∧
    editCountDistribution syntheticSteps = [⟨2, "2", 3⟩, ⟨5, "5", 1⟩] := by
  have hcount : ∀ (steps : List Nat) (k : Nat), 1 < k →
      ((steps.dedup.map (fun img => steps.count img)).filter
        (fun c => 1 < c)).count k = photosWithEditCount steps k := by
    intro steps k hk
    rw [List.count_filter (by simpa using hk), List.count_eq_countP,
      List.countP_map, List.countP_eq_length_filter, photosWithEditCount]
    congr 1
  have hkeys : ∀ (steps : List Nat) (k : Nat),
      k ∈ ((steps.dedup.map (fun img => steps.count img)).filter
        (fun c => 1 < c)).dedup.insertionSort (fun a b => a ≤ b) ↔
      k ∈ (steps.dedup.map (fun img => steps.count img)).filter
        (fun c => 1 < c) := by
    intro steps k
    rw [(List.perm_insertionSort (fun a b => a ≤ b) _).mem_iff, List.mem_dedup]
  refine ⟨?_, ?_, ?_, by decide⟩
  · intro steps e he
    rw [editCountDistribution_eq] at he
    rcases List.mem_map.mp he with ⟨k, hkmem, hfe⟩
    have hkf := (hkeys steps k).mp hkmem
    have hk1 : 1 < k := by
      have := List.mem_filter.mp hkf
      simpa using this.2
    refine ⟨k, hk1, ?_, ?_, ?_⟩
    · rw [← hfe]
    · rw [← hfe]
    · rw [← hfe]
      show ((((steps.dedup.map (fun img => steps.count img)).filter
        (fun c => 1 < c)).count k : Nat) : Int) = _
      rw [hcount steps k hk1]
  · intro steps k hk1 hne
    have hpos : 0 < photosWithEditCount steps k := Nat.pos_of_ne_zero hne
    rw [photosWithEditCount] at hpos
    rcases List.exists_mem_of_length_pos hpos with ⟨img, himg⟩
    have h2 := List.mem_filter.mp himg
    have hkper : k ∈ steps.dedup.map (fun img => steps.count img) :=
      List.mem_map.mpr ⟨img, h2.1, by simpa using h2.2⟩
    have hkfil : k ∈ (steps.dedup.map (fun img => steps.count img)).filter
        (fun c => 1 < c) := List.mem_filter.mpr ⟨hkper, by simpa using hk1⟩
    refine ⟨⟨(k : Int), toString k,
      (((steps.dedup.map (fun img => steps.count img)).filter
        (fun c => 1 < c)).count k : Int)⟩, ?_, rfl⟩
    rw [editCountDistribution_eq]
    exact List.mem_map.mpr ⟨k, (hkeys steps k).mpr hkfil, rfl⟩
  · intro steps
    rw [editCountDistribution_eq]
    refine List.pairwise_map.mpr ?_
    have hsorted : List.Sorted (fun a b => a ≤ b)
        (((steps.dedup.map (fun img => steps.count img)).filter
          (fun c => 1 < c)).dedup.insertionSort (fun a b => a ≤ b)) :=
      List.sorted_insertionSort _ _
    have hnodup : (((steps.dedup.map (fun img => steps.count img)).filter
        (fun c => 1 < c)).dedup.insertionSort (fun a b => a ≤ b)).Nodup :=
      ((List.perm_insertionSort _ _).nodup_iff).mpr (List.nodup_dedup _)
    refine (hsorted.and hnodup).imp ?_
    rintro a b ⟨hle, hne⟩
    show ((a : Nat) : Int) < ((b : Nat) : Int)
    exact_mod_cast lt_of_le_of_ne hle hne

/-- Witness for C8 at the synthetic dataset: the first returned bucket
has edit count 2 and counts the 3 photos with exactly 2 edit steps. -/
theorem C8_edit_count_buckets_witness :
    ∃ k : Nat, 1 < k ∧ (⟨2, "2", 3⟩ : DistributionEntry).Id = (k : Int) ∧
      (⟨2, "2", 3⟩ : DistributionEntry).Label = toString k ∧
      (⟨2, "2", 3⟩ : DistributionEntry).Count =
        (photosWithEditCount syntheticSteps k : Int) :=
  C8_edit_count_buckets.1 syntheticSteps ⟨2, "2", 3⟩ (by decide)

/-! ### Preview extraction (claim C9)

The per-photo callback is translated from the closure in
`CmdExtractPreviews` (src/cmd/luminosity/cmd_extract_previews.go).  A
photo simulation carries the result of `photo.GetPreview()` (preview
bytes or an error) and the outcome the filesystem would give
`ioutil.WriteFile` for it. -/

structure PhotoSim where
  baseName : String
  previewResult : Except String (List Nat)
  writeResult : Option String

/-- Translation of the callback passed to `catalog.ForEachPhoto`:
a preview-retrieval failure is logged, bumps the error count and
returns nil (the batch continues); a write failure is returned as the
photo's error (without touching the counts); a successful write bumps
the success count.  The counter pair is (successCount, errorCount). -/
def extractCallback (counts : Nat × Nat) (p : PhotoSim) :
    (Nat × Nat) × Option String :=
  match p.previewResult with
  | Except.error _ => ((counts.1, counts.2 + 1), none)
  | Except.ok _ =>
      match p.writeResult with
      | some werr => (counts, some werr)
      | none => ((counts.1 + 1, counts.2), none)

/-- Modelled from the spec: `Catalog.ForEachPhoto` is not under src/
(only its call site is).  Per the spec's batch-loop description and the
Go per-photo iterator idiom it applies the callback to each photo in
order, stopping at the first callback error. -/
def forEachPhoto : List PhotoSim → (Nat × Nat) → (Nat × Nat) × Option String
  | [], counts => (counts, none)
  | p :: rest, counts =>
      match extractCallback counts p with
      | (c, some err) => (c, some err)
      | (c, none) => forEachPhoto rest c

/-- The batch run of `CmdExtractPreviews` over the photos of a catalog,
starting from zero success and error counts. -/
def runExtractPreviews (photos : List PhotoSim) : (Nat × Nat) × Option String :=
  forEachPhoto photos (0, 0)

/-- The photo's preview retrieval fails. -/
def previewFailed (p : PhotoSim) : Bool :=
  match p.previewResult with
  | Except.error _ => true
  | Except.ok _ => false

/-- The photo's preview is retrieved but the file write fails. -/
def writeFailed (p : PhotoSim) : Bool :=
  match p.previewResult with
  | Except.error _ => false
  | Except.ok _ => p.writeResult.isSome

/-- The photo's preview is retrieved and written successfully. -/
def writtenOk (p : PhotoSim) : Bool :=
  match p.previewResult with
  | Except.error _ => false
  | Except.ok _ => p.writeResult.isNone

theorem forEachPhoto_all_ok :
    ∀ (l : List PhotoSim) (counts : Nat × Nat),
      (∀ p ∈ l, writeFailed p = false) →
      forEachPhoto l counts =
        ((counts.1 + (l.filter writtenOk).length,
          counts.2 + (l.filter previewFailed).length), none) := by
  intro l
  induction l with
  | nil => intro counts _; simp [forEachPhoto]
  | cons p rest ih =>
      intro counts h
      have hw : writeFailed p = false := h p (by simp)
      rcases hp : p.previewResult with err | u
      · have hcb : extractCallback counts p = ((counts.1, counts.2 + 1), none) := by
          simp [extractCallback, hp]
        have hfilw : (p :: rest).filter writtenOk = rest.filter writtenOk := by
          simp [List.filter_cons, writtenOk, hp]
        have hfilp : ((p :: rest).filter previewFailed).length =
            (rest.filter previewFailed).length + 1 := by
          simp [List.filter_cons, previewFailed, hp]
        have hred : forEachPhoto (p :: rest) counts =
            forEachPhoto rest (counts.1, counts.2 + 1) := by
          rw [forEachPhoto, hcb]
        rw [hred, ih (counts.1, counts.2 + 1) (fun q hq => h q (by simp [hq])),
          hfilw, hfilp]
        refine congrArg (fun z => (z, (none : Option String))) ?_
        refine congrArg (fun z => (counts.1 + (rest.filter writtenOk).length, z)) ?_
        omega
      · have hwn : p.writeResult = none := by
          rcases ho : p.writeResult with _ | w
          · rfl
          · simp [writeFailed, hp, ho] at hw
        have hcb : extractCallback counts p = ((counts.1 + 1, counts.2), none) := by
          simp [extractCallback, hp, hwn]
        have hfilw : ((p :: rest).filter writtenOk).length =
            (rest.filter writtenOk).length + 1 := by
          simp [List.filter_cons, writtenOk, hp, hwn]
        have hfilp : (p :: rest).filter previewFailed = rest.filter previewFailed := by
          simp [List.filter_cons, previewFailed, hp]
        have hred : forEachPhoto (p :: rest) counts =
            forEachPhoto rest (counts.1 + 1, counts.2) := by
          rw [forEachPhoto, hcb]
        rw [hred, ih (counts.1 + 1, counts.2) (fun q hq => h q (by simp [hq])),
          hfilw, hfilp]
        refine congrArg (fun z => (z, (none : Option String))) ?_
        refine congrArg (fun z => (z, counts.2 + (rest.filter previewFailed).length)) ?_
        omega

theorem forEachPhoto_stops_at_write_failure :
    ∀ (pre : List PhotoSim) (bad : PhotoSim) (rest : List PhotoSim)
      (counts : Nat × Nat) (werr : String) (u : List Nat),
      (∀ p ∈ pre, writeFailed p = false) →
      bad.previewResult = Except.ok u → bad.writeResult = some werr →
      forEachPhoto (pre ++ bad :: rest) counts =
        ((counts.1 + (pre.filter writtenOk).length,
          counts.2 + (pre.filter previewFailed).length), some werr) := by
  intro pre
  induction pre with
  | nil =>
      intro bad rest counts werr u _ hprev hwrite
      have hcb : extractCallback counts bad = (counts, some werr) := by
        simp [extractCallback, hprev, hwrite]
      show forEachPhoto (bad :: rest) counts = _
      rw [forEachPhoto, hcb]
      simp
  | cons p pre' ih =>
      intro bad rest counts werr u h hprev hwrite
      have hw : writeFailed p = false := h p (by simp)
      rcases hp : p.previewResult with err | v
      · have hcb : extractCallback counts p = ((counts.1, counts.2 + 1), none) := by
          simp [extractCallback, hp]
        have hstep := ih bad rest (counts.1, counts.2 + 1) werr u
          (fun q hq => h q (by simp [hq])) hprev hwrite
        have hred : forEachPhoto (p :: (pre' ++ bad :: rest)) counts =
            forEachPhoto (pre' ++ bad :: rest) (counts.1, counts.2 + 1) := by
          rw [forEachPhoto, hcb]
        rw [List.cons_append, hred, hstep]
        have hfilw : (p :: pre').filter writtenOk = pre'.filter writtenOk := by
          simp [List.filter_cons, writtenOk, hp]
        have hfilp : ((p :: pre').filter previewFailed).length =
            (pre'.filter previewFailed).length + 1 := by
          simp [List.filter_cons, previewFailed, hp]
        rw [hfilw, hfilp]
        refine congrArg (fun z => (z, some werr)) ?_
        refine congrArg (fun z => (counts.1 + (pre'.filter writtenOk).length, z)) ?_
        omega
      · have hwn : p.writeResult = none := by
          rcases ho : p.writeResult with _ | w
          · rfl
          · simp [writeFailed, hp, ho] at hw
        have hcb : extractCallback counts p = ((counts.1 + 1, counts.2), none) := by
          simp [extractCallback, hp, hwn]
        have hstep := ih bad rest (counts.1 + 1, counts.2) werr u
          (fun q hq => h q (by simp [hq])) hprev hwrite
        have hred : forEachPhoto (p :: (pre' ++ bad :: rest)) counts =
            forEachPhoto (pre' ++ bad :: rest) (counts.1 + 1, counts.2) := by
          rw [forEachPhoto, hcb]
        rw [List.cons_append, hred, hstep]
        have hfilw : ((p :: pre').filter writtenOk).length =
            (pre'.filter writtenOk).length + 1 := by
          simp [List.filter_cons, writtenOk, hp, hwn]
        have hfilp : (p :: pre').filter previewFailed = pre'.filter previewFailed := by
          simp [List.filter_cons, previewFailed, hp]
        rw [hfilw, hfilp]
        refine congrArg (fun z => (z, some werr)) ?_
        refine congrArg (fun z => (z, counts.2 + (pre'.filter previewFailed).length)) ?_
        omega

/-! ### Claim C9 -/

/-- C9: per-photo error policy of the preview-extraction batch.  A
preview-retrieval failure bumps the error count and the callback
returns nil, so the batch continues past it; a write failure is
returned by the callback as that photo's error (counts untouched); a
successful write bumps the success count.  Across the whole batch, when
no write fails every photo is processed and the final counts are the
number of successfully written photos and the number of preview
failures; when a write fails, the photos before it (preview failures
included) are processed and counted and the write error is surfaced. -/
theorem C9_extract_previews_error_policy :
    (∀ (counts : Nat × Nat) (p : PhotoSim) (err : String),
      p.previewResult = Except.error err →
      extractCallback counts p = ((counts.1, counts.2 + 1), none)) ∧
    (∀ (counts : Nat × Nat) (p : PhotoSim) (u : List Nat) (werr : String),
      p.previewResult = Except.ok u → p.writeResult = some werr →
      extractCallback counts p = (counts, some werr)) ∧
    (∀ (counts : Nat × Nat) (p : PhotoSim) (u : List Nat),
      p.previewResult = Except.ok u → p.writeResult = none →
      extractCallback counts p = ((counts.1 + 1, counts.2), none)) ∧
    (∀ photos : List PhotoSim, (∀ p ∈ photos, writeFailed p = false) →
      runExtractPreviews photos =
        (((photos.filter writtenOk).length,
          (photos.filter previewFailed).length), none)) ∧
    (∀ (pre : List PhotoSim) (bad : PhotoSim) (rest : List PhotoSim)
      (werr : String) (u : List Nat),
      (∀ p ∈ pre, writeFailed p = false) →
      bad.previewResult = Except.ok u → bad.writeResult = some werr →
      runExtractPreviews (pre ++ bad :: rest) =
        (((pre.filter writtenOk).length,
          (pre.filter previewFailed).length), some werr)) := by
  refine ⟨?_, ?_, ?_, ?_, ?_⟩
  · intro counts p err hp
    simp [extractCallback, hp]
  · intro counts p u werr hp hw
    simp [extractCallback, hp, hw]
  · intro counts p u hp hw
    simp [extractCallback, hp, hw]
  · intro photos h
    have := forEachPhoto_all_ok photos (0, 0) h
    simpa [runExtractPreviews] using this
  · intro pre bad rest werr u h hprev hwrite
    have := forEachPhoto_stops_at_write_failure pre bad rest (0, 0) werr u
      h hprev hwrite
    simpa [runExtractPreviews] using this

/-- Witness for C9 at a concrete batch: photo "a" succeeds, photo "b"
fails preview retrieval (skipped and counted), photo "c" succeeds —
the run processes all three and reports 2 successes and 1 error with no
surfaced error. -/
theorem C9_extract_previews_error_policy_witness :
    runExtractPreviews
      [⟨"a", Except.ok [1], none⟩,
       ⟨"b", Except.error "no preview", none⟩,
       ⟨"c", Except.ok [2], none⟩] = ((2, 1), none) := by
  have h := C9_extract_previews_error_policy.2.2.2.1
    [⟨"a", Except.ok [1], none⟩,
     ⟨"b", Except.error "no preview", none⟩,
     ⟨"c", Except.ok [2], none⟩]
    (by decide)
  simpa using h

end Luminosity
